import Mathlib

/-!
Shallow embedding of `src/automata/automata.go` (package `automata`).

Modelling conventions:

* A Go `node` value is the nested inductive `Node`; its field
  `Transitions map[string][]node` is modelled as an association list
  `List (String × List Node)` with unique keys, Go map reads as `mapLookup`
  and Go map writes as `mapInsert` (replace the entry, or append a fresh one).
* The Go `automata` struct's `nodes map[string]node` field is never
  initialized by the source (`new(automata)` leaves it `nil`), so it is
  modelled as `Option (List (String × Node))`, `none` being Go's nil map:
  reading a nil map yields zero values, writing to one panics.  Panics are
  modelled with `Except GoPanic`.
* Go map iteration order is unspecified; the model iterates association
  lists in insertion order.  No theorem below depends on that order beyond
  what the corresponding claim itself fixes.
* The recursion of `epsilonRecursive` (the Go code terminates because the
  visited map grows inside a fixed heap) is modelled with a fuel parameter;
  the fuel bounds the recursion depth, and `sizeOf` of the node is a bound
  on that depth for the tree-shaped values representable here.  The
  unguarded initial call of `EpsilonClosure` is the singleton worklist with
  an empty visited map, where the membership guard passes trivially.
-/

/-- Go struct `node` (automata.go lines 14–18): a name, a transition table
from input symbol to destination nodes, and a finality flag. -/
inductive Node : Type where
  | mk (name : String) (transitions : List (String × List Node)) (final : Bool)

/-- Field accessor for `node.Name`. -/
def Node.Name : Node → String
  | .mk nm _ _ => nm

/-- Field accessor for `node.Transitions`. -/
def Node.Transitions : Node → List (String × List Node)
  | .mk _ ts _ => ts

/-- Field accessor for `node.Final`. -/
def Node.Final : Node → Bool
  | .mk _ _ f => f

/-- The zero value of Go type `node`: empty name, nil transition map
(readable as empty), false flag. -/
def zeroNode : Node := .mk "" [] false

/-- Go map read `m[k]` (returning the optional value). -/
def mapLookup {α : Type} (k : String) : List (String × α) → Option α
  | [] => none
  | (k', v) :: rest => if k' = k then some v else mapLookup k rest

/-- Go map write `m[k] = v`: replace the entry for `k` if present,
otherwise append a fresh entry. -/
def mapInsert {α : Type} (k : String) (v : α) : List (String × α) → List (String × α)
  | [] => [(k, v)]
  | (k', v') :: rest => if k' = k then (k, v) :: rest else (k', v') :: mapInsert k v rest

mutual

/-- Size of a node value; used only as a fuel bound for the closure
traversal below. -/
def nodeSize : Node → Nat
  | .mk _ ts _ => 1 + entriesSize ts

def entriesSize : List (String × List Node) → Nat
  | [] => 0
  | (_, ds) :: rest => 1 + nodeListSize ds + entriesSize rest

def nodeListSize : List Node → Nat
  | [] => 0
  | n :: rest => 1 + nodeSize n + nodeListSize rest

end

/-- Model of `epsilonRecursive` (automata.go lines 329–340) together with its caller's
worklist: process a list of nodes against the visited map `eT`; a node whose
name is already a key is skipped (the guard at line 335), otherwise the node
is recorded under its name (line 331) and its `" "`-successors are processed
first (lines 334–339), after which the remaining worklist continues on the
grown map.  `fuel` bounds the recursion depth (see the module comment). -/
def epsRec : Nat → List Node → List (String × Node) → List (String × Node)
  | 0, _, eT => eT
  | _ + 1, [], eT => eT
  | fuel + 1, c :: rest, eT =>
      epsRec fuel rest
        (if (mapLookup c.Name eT).isSome then eT
         else epsRec fuel ((mapLookup " " c.Transitions).getD []) (mapInsert c.Name c eT))

/-- Model of `EpsilonClosure` (automata.go lines 314–327): run `epsilonRecursive` from
the node on an empty visited map and return the collected values. -/
def EpsilonClosure (inputNode : Node) : List Node :=
  (epsRec (nodeSize inputNode) [inputNode] []).map Prod.snd

/-- Model of `GetNext` (automata.go lines 300–312): read the destinations for `a`,
append the epsilon closure of the node itself, but return the empty slice
whenever the transition table has no entry for `a`. -/
def GetNext (head : Node) (a : String) : List Node :=
  let lk := mapLookup a head.Transitions
  let nextNodes := lk.getD [] ++ EpsilonClosure head
  match lk with
  | none => []
  | some _ => nextNodes

/-- Model of `DFAaccepts` (automata.go lines 88–101): follow the first element of
`GetNext` for each input symbol; an empty `GetNext` result rejects; at the
end of the input the current node's flag decides. -/
def DFAaccepts (head : Node) : List String → Bool
  | [] => head.Final
  | nextLiteral :: rest =>
      match GetNext head nextLiteral with
      | [] => false
      | nextNode :: _ => DFAaccepts nextNode rest

/-- A successful map read locates an entry of the list. -/
theorem mapLookup_mem {α : Type} {k : String} {v : α} :
    ∀ {l : List (String × α)}, mapLookup k l = some v → (k, v) ∈ l := by
  intro l
  induction l with
  | nil => intro h; simp [mapLookup] at h
  | cons p rest ih =>
    obtain ⟨k', v'⟩ := p
    intro h
    by_cases hk : k' = k
    · subst hk
      simp [mapLookup] at h
      subst h
      exact List.mem_cons_self _ _
    · simp [mapLookup, hk] at h
      exact List.mem_cons_of_mem _ (ih h)

/-- Reading back the key just written. -/
theorem mapLookup_mapInsert_self {α : Type} (k : String) (v : α) :
    ∀ (l : List (String × α)), mapLookup k (mapInsert k v l) = some v := by
  intro l
  induction l with
  | nil => simp [mapInsert, mapLookup]
  | cons p rest ih =>
    obtain ⟨k', v'⟩ := p
    by_cases hk : k' = k
    · subst hk; simp [mapInsert, mapLookup]
    · simp [mapInsert, mapLookup, hk, ih]

/-- Writing one key does not disturb reads of another. -/
theorem mapLookup_mapInsert_ne {α : Type} {k k' : String} (h : k ≠ k') (v : α) :
    ∀ (l : List (String × α)), mapLookup k (mapInsert k' v l) = mapLookup k l := by
  intro l
  induction l with
  | nil => simp [mapInsert, mapLookup, Ne.symm h]
  | cons p rest ih =>
    obtain ⟨k'', v''⟩ := p
    by_cases hk : k'' = k'
    · subst hk
      simp [mapInsert, mapLookup, Ne.symm h]
    · simp [mapInsert, mapLookup, hk, ih]

/-- Entries after a write come from the write or from the old list. -/
theorem mem_mapInsert {α : Type} {p : String × α} {k : String} {v : α} :
    ∀ {l : List (String × α)}, p ∈ mapInsert k v l → p = (k, v) ∨ p ∈ l := by
  intro l
  induction l with
  | nil => intro h; simp [mapInsert] at h; exact Or.inl h
  | cons q rest ih =>
    obtain ⟨k', v'⟩ := q
    intro h
    by_cases hk : k' = k
    · subst hk
      simp [mapInsert] at h
      rcases h with h | h
      · exact Or.inl h
      · exact Or.inr (List.mem_cons_of_mem _ h)
    · simp [mapInsert, hk] at h
      rcases h with h | h
      · exact Or.inr (by simp [h])
      · rcases ih h with h' | h'
        · exact Or.inl h'
        · exact Or.inr (List.mem_cons_of_mem _ h')

/-- Keys after a write are the written key or old keys. -/
theorem mem_keys_mapInsert {α : Type} {a k : String} {v : α} :
    ∀ {l : List (String × α)}, a ∈ (mapInsert k v l).map Prod.fst →
      a = k ∨ a ∈ l.map Prod.fst := by
  intro l h
  rcases List.mem_map.mp h with ⟨p, hp, rfl⟩
  rcases mem_mapInsert hp with h' | h'
  · subst h'; exact Or.inl rfl
  · exact Or.inr (List.mem_map_of_mem _ h')

/-- A write preserves distinctness of the keys. -/
theorem nodupKeys_mapInsert {α : Type} (k : String) (v : α) :
    ∀ {l : List (String × α)}, (l.map Prod.fst).Nodup →
      ((mapInsert k v l).map Prod.fst).Nodup := by
  intro l
  induction l with
  | nil => intro _; simp [mapInsert]
  | cons p rest ih =>
    obtain ⟨k', v'⟩ := p
    intro h
    rw [List.map_cons, List.nodup_cons] at h
    by_cases hk : k' = k
    · subst hk
      simpa [mapInsert, List.nodup_cons] using h
    · have heq : mapInsert k v ((k', v') :: rest) = (k', v') :: mapInsert k v rest := by
        simp [mapInsert, hk]
      rw [heq, List.map_cons, List.nodup_cons]
      refine ⟨fun hmem => ?_, ih h.2⟩
      rcases mem_keys_mapInsert hmem with h' | h'
      · exact hk h'
      · exact h.1 h'

/-- An empty worklist leaves the visited map unchanged, for any fuel. -/
theorem epsRec_nil_worklist : ∀ (f : Nat) (eT : List (String × Node)),
    epsRec f [] eT = eT := by
  intro f eT
  cases f <;> rfl

/-- The traversal never removes or overwrites an entry already present:
`epsilonRecursive` only writes a name after checking it is absent. -/
theorem epsRec_preserves : ∀ (f : Nat) (cs : List Node) (eT : List (String × Node))
    {k : String} {v : Node}, mapLookup k eT = some v →
    mapLookup k (epsRec f cs eT) = some v := by
  intro f
  induction f with
  | zero => intro cs eT k v h; simpa [epsRec] using h
  | succ f ih =>
    intro cs eT k v h
    cases cs with
    | nil => simpa [epsRec] using h
    | cons c rest =>
      simp only [epsRec]
      apply ih
      by_cases hg : (mapLookup c.Name eT).isSome
      · rw [if_pos hg]; exact h
      · rw [if_neg hg]
        apply ih
        have hne : k ≠ c.Name := by
          intro e; subst e; rw [h] at hg; simp at hg
        rw [mapLookup_mapInsert_ne hne]
        exact h

/-- Distinctness of the visited map's keys is an invariant of the traversal. -/
theorem epsRec_nodupKeys : ∀ (f : Nat) (cs : List Node) (eT : List (String × Node)),
    (eT.map Prod.fst).Nodup → ((epsRec f cs eT).map Prod.fst).Nodup := by
  intro f
  induction f with
  | zero => intro cs eT h; simpa [epsRec] using h
  | succ f ih =>
    intro cs eT h
    cases cs with
    | nil => simpa [epsRec] using h
    | cons c rest =>
      simp only [epsRec]
      apply ih
      by_cases hg : (mapLookup c.Name eT).isSome
      · rw [if_pos hg]; exact h
      · rw [if_neg hg]
        exact ih _ _ (nodupKeys_mapInsert _ _ h)

/-- Every visited-map entry keys a node under that node's own name. -/
theorem epsRec_keys_are_names : ∀ (f : Nat) (cs : List Node) (eT : List (String × Node)),
    (∀ p ∈ eT, p.1 = p.2.Name) → ∀ p ∈ epsRec f cs eT, p.1 = p.2.Name := by
  intro f
  induction f with
  | zero => intro cs eT h; simpa [epsRec] using h
  | succ f ih =>
    intro cs eT h
    cases cs with
    | nil => simpa [epsRec] using h
    | cons c rest =>
      simp only [epsRec]
      apply ih
      by_cases hg : (mapLookup c.Name eT).isSome
      · rw [if_pos hg]; exact h
      · rw [if_neg hg]
        apply ih
        intro p hp
        rcases mem_mapInsert hp with h' | h'
        · subst h'; rfl
        · exact h _ h'

/-- The closure always contains the node it was taken from: the first action
of `epsilonRecursive` records the node under its own name, and that entry is
never overwritten. -/
theorem mem_epsilonClosure_self (n : Node) : n ∈ EpsilonClosure n := by
  obtain ⟨nm, ts, fl⟩ := n
  show Node.mk nm ts fl ∈
    (epsRec (nodeSize (.mk nm ts fl)) [Node.mk nm ts fl] []).map Prod.snd
  rw [show nodeSize (.mk nm ts fl) = 1 + entriesSize ts from rfl, Nat.add_comm]
  simp only [epsRec, mapLookup, Option.isSome_none, Bool.false_eq_true, if_false,
    epsRec_nil_worklist]
  exact List.mem_map_of_mem _
    (mapLookup_mem (epsRec_preserves _ _ _ (mapLookup_mapInsert_self _ _ _)))

/-- The closure list never repeats a state: its entries carry pairwise
distinct names. -/
theorem epsilonClosure_nodup (n : Node) : (EpsilonClosure n).Nodup := by
  have hkeys : ((epsRec (nodeSize n) [n] []).map Prod.fst).Nodup :=
    epsRec_nodupKeys _ _ _ (by simp)
  have hnames : ∀ p ∈ epsRec (nodeSize n) [n] [], p.1 = p.2.Name :=
    epsRec_keys_are_names _ _ _ (by simp)
  have hmapeq : (epsRec (nodeSize n) [n] []).map Prod.fst
      = ((epsRec (nodeSize n) [n] []).map Prod.snd).map Node.Name := by
    rw [List.map_map]
    exact List.map_congr_left hnames
  rw [hmapeq] at hkeys
  exact hkeys.of_map _

/-- C9: for every state `s`, the epsilon closure of `s` contains `s` itself,
and the returned collection contains no duplicate states. -/
theorem epsilonClosure_refl_and_nodup (n : Node) :
    n ∈ EpsilonClosure n ∧ (EpsilonClosure n).Nodup :=
  ⟨mem_epsilonClosure_self n, epsilonClosure_nodup n⟩

/-- C10: `GetNext` returns the empty list whenever the transition table has
no entry for the symbol, even if epsilon transitions exist; and whenever an
entry exists, the result is the direct destinations followed by the epsilon
closure of the node itself, so it always contains the node. -/
theorem getNext_none_or_append (n : Node) (a : String) :
    (mapLookup a n.Transitions = none → GetNext n a = []) ∧
    (∀ ds, mapLookup a n.Transitions = some ds →
      GetNext n a = ds ++ EpsilonClosure n ∧ n ∈ GetNext n a) := by
  constructor
  · intro h
    simp [GetNext, h]
  · intro ds h
    have heq : GetNext n a = ds ++ EpsilonClosure n := by
      simp [GetNext, h]
    refine ⟨heq, ?_⟩
    rw [heq]
    exact List.mem_append_right _ (mem_epsilonClosure_self n)

/-- Witness for `getNext_none_or_append`: a node with an epsilon edge but no
`"x"` entry yields the empty list, and a node with a `"y"` entry yields the
destinations followed by the closure. -/
theorem getNext_none_or_append_w :
    GetNext (Node.mk "A" [(" ", [Node.mk "B" [] false])] false) "x" = [] ∧
    GetNext (Node.mk "C" [("y", [Node.mk "D" [] false])] false) "y"
      = [Node.mk "D" [] false]
        ++ EpsilonClosure (Node.mk "C" [("y", [Node.mk "D" [] false])] false) :=
  ⟨(getNext_none_or_append (Node.mk "A" [(" ", [Node.mk "B" [] false])] false) "x").1 rfl,
    ((getNext_none_or_append (Node.mk "C" [("y", [Node.mk "D" [] false])] false) "y").2
      [Node.mk "D" [] false] rfl).1⟩

/-- If no entry of the table has key `k`, reading `k` misses. -/
theorem mapLookup_eq_none_of_forall_ne {α : Type} {k : String} :
    ∀ {l : List (String × α)}, (∀ p ∈ l, p.1 ≠ k) → mapLookup k l = none := by
  intro l
  induction l with
  | nil => intro _; rfl
  | cons p rest ih =>
    obtain ⟨k', v'⟩ := p
    intro h
    have hne : k' ≠ k := h (k', v') (List.mem_cons_self _ _)
    simp [mapLookup, hne]
    exact ih fun q hq => h q (List.mem_cons_of_mem _ hq)

/-- A node with no epsilon entry in its table is its own epsilon closure. -/
theorem epsilonClosure_no_eps (n : Node) (h : mapLookup " " n.Transitions = none) :
    EpsilonClosure n = [n] := by
  obtain ⟨nm, ts, fl⟩ := n
  simp only [Node.Transitions] at h
  show (epsRec (nodeSize (.mk nm ts fl)) [Node.mk nm ts fl] []).map Prod.snd
    = [Node.mk nm ts fl]
  rw [show nodeSize (.mk nm ts fl) = 1 + entriesSize ts from rfl, Nat.add_comm]
  simp only [epsRec, Node.Name, Node.Transitions, mapLookup, Option.isSome_none,
    Bool.false_eq_true, if_false, h, Option.getD_none, epsRec_nil_worklist]
  simp [mapInsert]

/-- The determinism the amended claim C8 assumes: every entry of every
reachable transition table has a non-epsilon key and exactly one
destination. -/
inductive Deterministic : Node → Prop where
  | intro (nm : String) (ts : List (String × List Node)) (fl : Bool)
      (hkeys : ∀ p ∈ ts, p.1 ≠ " " ∧ p.2.length = 1)
      (hchildren : ∀ p ∈ ts, ∀ c ∈ p.2, Deterministic c) :
      Deterministic (Node.mk nm ts fl)

/-- The determinism hypothesis exactly as claim C8 words it: no epsilon
transitions and at most one destination per present entry. -/
inductive ClaimDeterministic : Node → Prop where
  | intro (nm : String) (ts : List (String × List Node)) (fl : Bool)
      (hkeys : ∀ p ∈ ts, p.1 ≠ " " ∧ p.2.length ≤ 1)
      (hchildren : ∀ p ∈ ts, ∀ c ∈ p.2, ClaimDeterministic c) :
      ClaimDeterministic (Node.mk nm ts fl)

/-- Modelled from the spec (§4.4, deterministic fast path): maintain one
current state; for each input symbol look up the unique destination, reject
immediately when there is none; after the input is consumed accept exactly
when the current state is final. -/
def specDFAWalk (current : Node) : List String → Bool
  | [] => current.Final
  | a :: rest =>
      match (mapLookup a current.Transitions).bind List.head? with
      | none => false
      | some d => specDFAWalk d rest

/-- C8 (amended): on automata whose reachable tables have exactly one
destination per entry and no epsilon entries, `DFAaccepts` walks one state
per symbol, rejects as soon as a symbol has no destination, and at the end
of the input accepts exactly when the current state is final — that is, it
agrees with the spec's deterministic walk. -/
theorem dfaAccepts_deterministic_correct (input : List String) :
    ∀ (n : Node), Deterministic n → DFAaccepts n input = specDFAWalk n input := by
  induction input with
  | nil =>
    intro n _
    cases n
    rfl
  | cons a rest ih =>
    intro n hdet
    cases hdet with
    | intro nm ts fl hkeys hchildren =>
      cases hLk : mapLookup a ts with
      | none =>
        have hG : GetNext (Node.mk nm ts fl) a = [] := by
          simp [GetNext, Node.Transitions, hLk]
        simp [DFAaccepts, specDFAWalk, hG, Node.Transitions, hLk]
      | some ds =>
        have hmem := mapLookup_mem (l := ts) hLk
        obtain ⟨hne, hlen⟩ := hkeys _ hmem
        obtain ⟨d, rfl⟩ := List.length_eq_one.mp hlen
        have hclo : EpsilonClosure (Node.mk nm ts fl) = [Node.mk nm ts fl] :=
          epsilonClosure_no_eps _
            (mapLookup_eq_none_of_forall_ne fun p hp => (hkeys p hp).1)
        have hG : GetNext (Node.mk nm ts fl) a = [d, Node.mk nm ts fl] := by
          simp [GetNext, Node.Transitions, hLk, hclo]
        have hd : Deterministic d := hchildren _ hmem d (by simp)
        simp [DFAaccepts, specDFAWalk, hG, Node.Transitions, hLk, ih d hd]

/-- Witness for `dfaAccepts_deterministic_correct` at a two-state automaton
reading one symbol. -/
theorem dfaAccepts_deterministic_correct_w :
    DFAaccepts (Node.mk "S0" [("x", [Node.mk "S1" [] true])] false) ["x"]
      = specDFAWalk (Node.mk "S0" [("x", [Node.mk "S1" [] true])] false) ["x"] :=
  dfaAccepts_deterministic_correct ["x"] _
    (Deterministic.intro "S0" [("x", [Node.mk "S1" [] true])] false
      (by decide)
      (by
        intro p hp c hc
        simp at hp
        subst hp
        simp at hc
        subst hc
        exact Deterministic.intro "S1" [] true (by simp) (by simp)))

/-- C8 as stated is false: this node has no epsilon transition and at most
one destination per entry, yet on input `["x"]` — whose entry holds zero
destinations — `DFAaccepts` returns `true` (it falls into the appended
epsilon closure and loops back to the node itself) where the claimed
behaviour rejects. -/
theorem dfaAccepts_zero_dest_counterexample :
    ClaimDeterministic (Node.mk "A" [("x", [])] true) ∧
    specDFAWalk (Node.mk "A" [("x", [])] true) ["x"] = false ∧
    DFAaccepts (Node.mk "A" [("x", [])] true) ["x"] = true := by
  refine ⟨?_, rfl, rfl⟩
  exact ClaimDeterministic.intro "A" [("x", [])] true (by decide) (by simp)

/-- The run-time faults the Go code can raise in the modelled fragment. -/
inductive GoPanic : Type where
  | nilMapAssignment
  | indexOutOfRange

/-- Go struct `automata` (automata.go lines 9–12).  The `nodes` map stays
`none` while nil — `new(automata)` never initializes it. -/
structure Automata where
  beginning : Node
  nodes : Option (List (String × Node))

/-- Model of `CreateNode` (automata.go lines 289–297): allocate a node with an
initialized empty transition map and store it into `automata.nodes`;
storing into the nil map is Go's "assignment to entry in nil map" panic. -/
def CreateNode (automata : Automata) (a : String) : Except GoPanic (Node × Automata) :=
  let newNode : Node := .mk a [] false
  match automata.nodes with
  | none => .error .nilMapAssignment
  | some m => .ok (newNode, { automata with nodes := some (mapInsert a newNode m) })

/-- Model of `AddTransition` (automata.go lines 62–85): look both endpoint names up
in the node map (a nil map reads as absent), create the missing endpoints,
then compute the updated destination slice for the symbol — which the Go
code binds only locally (`end`) and never writes back into
`startNode.Transitions`, so no edge is recorded; only the `CreateNode`
insertions persist.  The triple is (from, symbol, to). -/
def AddTransition (automata : Automata) (t : String × String × String) :
    Except GoPanic (Node × Automata) :=
  let m := automata.nodes.getD []
  let startLk := mapLookup t.1 m
  let endLk := mapLookup t.2.2 m
  match
    (match startLk with
     | some s => Except.ok (s, automata)
     | none => CreateNode automata t.1) with
  | .error p => .error p
  | .ok (startNode, a1) =>
    match
      (match endLk with
       | some e => Except.ok (e, a1)
       | none => CreateNode a1 t.2.2) with
    | .error p => .error p
    | .ok (endNode, a2) =>
      let _end : List Node :=
        match mapLookup t.2.1 startNode.Transitions with
        | none => [endNode]
        | some e => e ++ [endNode]
      .ok (endNode, a2)

/-- The construction loop of `MakeAutomata` (automata.go lines 32–34). -/
def addTransitionList (automata : Automata) :
    List (String × String × String) → Except GoPanic Automata
  | [] => .ok automata
  | t :: rest =>
    match AddTransition automata t with
    | .error p => .error p
    | .ok (_, a') => addTransitionList a' rest

/-- The final-marking phase of `MakeAutomata` (automata.go lines 36–48):
build `finishMap`, then for each recorded name fetch a copy of the node and
set the copy's flag — the Go code mutates only the local variable
`finishNode`, so the stored nodes come back unchanged. -/
def markFinals (automata : Automata) (finishStates : List String) : Automata :=
  let finishMap : List (String × Bool) :=
    finishStates.foldl (fun m f => mapInsert f true m) []
  finishMap.foldl
    (fun acc p =>
      if p.2 then
        let finishNode := (mapLookup p.1 (acc.nodes.getD [])).getD zeroNode
        let _finishNode := Node.mk finishNode.Name finishNode.Transitions true
        acc
      else acc)
    automata

/-- Model of `MakeAutomata` (automata.go lines 27–60): `new(automata)` (nil node
map), add all transitions, mark finals, then look up or create the
beginning node. -/
def MakeAutomata (transitions : List (String × String × String)) (beginning : String)
    (finishStates : List String) : Except GoPanic Automata :=
  let automata : Automata := { beginning := zeroNode, nodes := none }
  match addTransitionList automata transitions with
  | .error p => .error p
  | .ok a =>
    let a := markFinals a finishStates
    match mapLookup beginning (a.nodes.getD []) with
    | some b => .ok { a with beginning := b }
    | none =>
      match CreateNode a beginning with
      | .error p => .error p
      | .ok (b, a') => .ok { a' with beginning := b }

/-- C7 fails on the code: because `automata.nodes` is never initialized, the
very first `CreateNode` hits Go's "assignment to entry in nil map" panic,
so construction fails even on this structurally valid input. -/
theorem makeAutomata_panics :
    MakeAutomata [("a", "x", "b")] "a" ["b"] = .error GoPanic.nilMapAssignment := rfl

/-- C1 fails on the code: even starting from an automaton whose node map is
initialized (which `MakeAutomata` itself never achieves), `AddTransition`
creates the two endpoint nodes but returns every transition table empty —
the computed destination slice is dropped, so `"b"` is never recorded under
`edges("a")["x"]`. -/
theorem addTransition_drops_edge :
    AddTransition { beginning := zeroNode, nodes := some [] } ("a", "x", "b")
      = .ok (Node.mk "b" [] false,
          { beginning := zeroNode,
            nodes := some [("a", Node.mk "a" [] false), ("b", Node.mk "b" [] false)] }) := rfl

/-- C2 fails on the code: the final-marking loop sets the flag on a value
copy of the looked-up node and never stores it back, so a node named in
`finishStates` keeps `Final = false`. -/
theorem markFinals_drops_flag :
    markFinals { beginning := zeroNode, nodes := some [("b", Node.mk "b" [] false)] } ["b"]
      = { beginning := zeroNode, nodes := some [("b", Node.mk "b" [] false)] } := rfl

/-- Byte-wise strict order on character lists, as Go compares strings.
Written over `Char.toNat` so that it evaluates inside the kernel. -/
def charListLt : List Char → List Char → Bool
  | [], [] => false
  | [], _ :: _ => true
  | _ :: _, [] => false
  | c :: cs, d :: ds =>
      if c.toNat < d.toNat then true
      else if d.toNat < c.toNat then false
      else charListLt cs ds

/-- Go's `<` on strings. -/
def strLt (s t : String) : Bool := charListLt s.data t.data

/-- One insertion step of insertion sort by `strLt`. -/
def insertSorted (s : String) : List String → List String
  | [] => [s]
  | t :: rest => if strLt s t then s :: t :: rest else t :: insertSorted s rest

/-- Model of `sort.Strings` (ascending): modelled as insertion sort by Go's string
order.  The order is total and antisymmetric, so every sorting algorithm
returns this same list. -/
def sortStrings : List String → List String
  | [] => []
  | s :: rest => insertSorted s (sortStrings rest)

/-- Model of `compositNodeName` (automata.go lines 278–286): sort the name parts and
concatenate them with no separator. -/
def compositNodeName (names : List String) : String :=
  (sortStrings names).foldl (· ++ ·) ""

/-- The strict string order is asymmetric (character-list level). -/
theorem charListLt_asymm : ∀ {cs ds : List Char},
    charListLt cs ds = true → charListLt ds cs = false := by
  intro cs
  induction cs with
  | nil =>
    intro ds h
    cases ds with
    | nil => simp [charListLt] at h
    | cons d ds => rfl
  | cons c cs ih =>
    intro ds h
    cases ds with
    | nil => simp [charListLt] at h
    | cons d ds =>
      simp only [charListLt] at h ⊢
      by_cases h1 : c.toNat < d.toNat
      · have h2 : ¬ d.toNat < c.toNat := by omega
        simp [h1, h2]
      · by_cases h2 : d.toNat < c.toNat
        · simp [h1, h2] at h
        · rw [if_neg h1, if_neg h2] at h
          rw [if_neg h2, if_neg h1]
          exact ih h

/-- Two character lists neither of which is below the other are equal. -/
theorem charListLt_connex : ∀ {cs ds : List Char},
    charListLt cs ds = false → charListLt ds cs = false → cs = ds := by
  intro cs
  induction cs with
  | nil =>
    intro ds h1 _
    cases ds with
    | nil => rfl
    | cons d ds => simp [charListLt] at h1
  | cons c cs ih =>
    intro ds h1 h2
    cases ds with
    | nil => simp [charListLt] at h2
    | cons d ds =>
      simp only [charListLt] at h1 h2
      by_cases hcd : c.toNat < d.toNat
      · simp [hcd] at h1
      · by_cases hdc : d.toNat < c.toNat
        · simp [hdc, hcd] at h2
        · simp only [hcd, hdc, if_false] at h1 h2
          have hc : c = d := by
            apply Char.eq_of_val_eq
            apply UInt32.ext
            have : c.toNat = d.toNat := by omega
            simpa [Char.toNat, UInt32.toNat] using this
          rw [hc, ih h1 h2]

/-- Equal character data means equal strings. -/
theorem string_eq_of_data_eq {s t : String} (h : s.data = t.data) : s = t := by
  cases s
  cases t
  simp_all

/-- Asymmetry of `strLt`. -/
theorem strLt_asymm {s t : String} (h : strLt s t = true) : strLt t s = false :=
  charListLt_asymm h

/-- Strings neither of which is below the other are equal. -/
theorem strLt_connex {s t : String} (h1 : strLt s t = false) (h2 : strLt t s = false) :
    s = t :=
  string_eq_of_data_eq (charListLt_connex h1 h2)

/-- The strict string order is transitive (character-list level). -/
theorem charListLt_trans : ∀ {as bs cs : List Char},
    charListLt as bs = true → charListLt bs cs = true → charListLt as cs = true := by
  intro as
  induction as with
  | nil =>
    intro bs cs h1 h2
    cases bs with
    | nil => simp [charListLt] at h1
    | cons b bs =>
      cases cs with
      | nil => simp [charListLt] at h2
      | cons c cs => rfl
  | cons a as ih =>
    intro bs cs h1 h2
    cases bs with
    | nil => simp [charListLt] at h1
    | cons b bs =>
      cases cs with
      | nil => simp [charListLt] at h2
      | cons c cs =>
        simp only [charListLt] at h1 h2 ⊢
        by_cases hab : a.toNat < b.toNat
        · by_cases hbc : b.toNat < c.toNat
          · simp [show a.toNat < c.toNat by omega]
          · by_cases hcb : c.toNat < b.toNat
            · simp [hbc, hcb] at h2
            · simp [show a.toNat < c.toNat by omega]
        · by_cases hba : b.toNat < a.toNat
          · simp [hab, hba] at h1
          · by_cases hbc : b.toNat < c.toNat
            · simp [show a.toNat < c.toNat by omega]
            · by_cases hcb : c.toNat < b.toNat
              · simp [hbc, hcb] at h2
              · have hac : ¬ a.toNat < c.toNat := by omega
                have hca : ¬ c.toNat < a.toNat := by omega
                simp only [hab, hba, if_false] at h1
                simp only [hbc, hcb, if_false] at h2
                simp only [hac, hca, if_false]
                exact ih h1 h2

/-- Transitivity of `strLt`. -/
theorem strLt_trans {s t u : String} (h1 : strLt s t = true) (h2 : strLt t u = true) :
    strLt s u = true :=
  charListLt_trans h1 h2

/-- Insertions into a list commute, in the ordered case. -/
theorem insertSorted_comm_lt {s t : String} (hst : strLt s t = true) :
    ∀ l, insertSorted s (insertSorted t l) = insertSorted t (insertSorted s l) := by
  have hts : strLt t s = false := strLt_asymm hst
  intro l
  induction l with
  | nil => simp [insertSorted, hst, hts]
  | cons u rest ih =>
    cases htu : strLt t u with
    | true =>
      have hsu : strLt s u = true := strLt_trans hst htu
      simp [insertSorted, hst, hts, htu, hsu]
    | false =>
      cases hsu : strLt s u with
      | true => simp [insertSorted, hsu, htu, hts]
      | false => simp [insertSorted, hsu, htu, ih]

/-- Insertions into a list commute. -/
theorem insertSorted_comm (s t : String) :
    ∀ l, insertSorted s (insertSorted t l) = insertSorted t (insertSorted s l) := by
  intro l
  cases hst : strLt s t with
  | true => exact insertSorted_comm_lt hst l
  | false =>
    cases hts : strLt t s with
    | true => exact (insertSorted_comm_lt hts l).symm
    | false => rw [strLt_connex hst hts]

/-- Sorting is invariant under permutation of the input. -/
theorem sortStrings_perm_eq {l₁ l₂ : List String} (h : l₁.Perm l₂) :
    sortStrings l₁ = sortStrings l₂ := by
  induction h with
  | nil => rfl
  | cons a _ ih => simp [sortStrings, ih]
  | swap a b l => simp [sortStrings, insertSorted_comm]
  | trans _ _ ih₁ ih₂ => rw [ih₁, ih₂]

/-- C6 (amended): the composite-state key is canonical under reordering of
the member names — permuting the input list never changes the key — but it
is not injective (see the collision counterexample). -/
theorem compositNodeName_perm_invariant (l₁ l₂ : List String) (h : l₁.Perm l₂) :
    compositNodeName l₁ = compositNodeName l₂ := by
  unfold compositNodeName
  rw [sortStrings_perm_eq h]

/-- Witness for `compositNodeName_perm_invariant` on a two-element list. -/
theorem compositNodeName_perm_invariant_w :
    compositNodeName ["b", "a"] = compositNodeName ["a", "b"] :=
  compositNodeName_perm_invariant ["b", "a"] ["a", "b"] (List.Perm.swap "a" "b" [])

/-- C6 as stated is false: the name sets `{"a","b"}` and `{"ab"}` are
distinct, yet both canonical keys are the string `"ab"` — sorted
concatenation without a separator collides. -/
theorem compositNodeName_collision :
    compositNodeName ["a", "b"] = compositNodeName ["ab"] ∧
    ("b" : String) ∈ ["a", "b"] ∧ ("b" : String) ∉ (["ab"] : List String) :=
  ⟨rfl, by decide, by decide⟩

/-- Model of `makeCompositNode` (automata.go lines 253–275): collect the epsilon
closures of the given nodes, concatenate their sorted names into the
canonical composite name, and either return the node of that name already
stored in the receiver (the Go non-nil `error` return, modelled as the
`Bool` component being `true`) or create a fresh one — `CreateNode` panics
there when the receiver's node map is nil. -/
def makeCompositNode (nfa : Automata) (startNodes : List Node) :
    Except GoPanic (Node × List Node × Bool × Automata) :=
  let nodes := startNodes.foldl (fun acc n => acc ++ EpsilonClosure n) []
  let newNameParts := nodes.map Node.Name
  let newName := compositNodeName newNameParts
  match mapLookup newName (nfa.nodes.getD []) with
  | some existing => .ok (existing, nodes, true, nfa)
  | none =>
    match CreateNode nfa newName with
    | .error p => .error p
    | .ok (nn, nfa') => .ok (nn, nodes, false, nfa')

/-- The transition-copying loop of `recursiveMerge` (automata.go lines
221–233): for every merged node and every entry of its table — the epsilon
key included — first ensure the key exists, then overwrite it with
`append(mergedNode.Transitions[input], endNode...)`, i.e. the merged node's
own destination list appended to the ranged value (the same list, hence
duplicated), discarding what previous merged nodes contributed. -/
def mergeTransitions (returnNode : Node) (mergedNodes : List Node) : Node :=
  mergedNodes.foldl
    (fun rn mergedNode =>
      mergedNode.Transitions.foldl
        (fun rn p =>
          let rn :=
            if (mapLookup p.1 rn.Transitions).isSome then rn
            else Node.mk rn.Name (mapInsert p.1 [] rn.Transitions) rn.Final
          Node.mk rn.Name
            (mapInsert p.1 ((mapLookup p.1 mergedNode.Transitions).getD [] ++ p.2)
              rn.Transitions)
            rn.Final)
        rn)
    returnNode

/-- Model of `recursiveMerge` (automata.go lines 207–250): form the composite node of
the head's epsilon closure; if it already existed return it, otherwise copy
all merged transitions, recompute finality, and replace each entry's
destinations by the singleton recursive merge of the entry's first
destination (`newNode[0]` — an index-out-of-range panic when the list is
empty).  The recursion is modelled with fuel; `none` means the fuel ran out
(a model artifact only — every theorem below hits a panic at depth one). -/
def recursiveMerge : Nat → Automata → Node → Option (Except GoPanic (Node × Automata))
  | 0, _, _ => none
  | fuel + 1, dfa, head =>
    match makeCompositNode dfa (EpsilonClosure head) with
    | .error p => some (.error p)
    | .ok (returnNode, mergedNodes, existsAlready, dfa1) =>
      if existsAlready then some (.ok (returnNode, dfa1))
      else
        let rn0 := mergeTransitions returnNode mergedNodes
        let rn1 := Node.mk rn0.Name rn0.Transitions (mergedNodes.any Node.Final)
        rn1.Transitions.foldl
          (fun acc p =>
            match acc with
            | some (.ok (rn, dfa2)) =>
              match p.2 with
              | [] => some (.error .indexOutOfRange)
              | first :: _ =>
                match recursiveMerge fuel dfa2 first with
                | none => none
                | some (.error q) => some (.error q)
                | some (.ok (merged, dfa3)) =>
                  some (.ok (Node.mk rn.Name (mapInsert p.1 [merged] rn.Transitions)
                    rn.Final, dfa3))
            | other => other)
          (some (.ok (rn1, dfa1)))

/-- Model of `ToDFA` (automata.go lines 200–204): allocate a fresh automata — whose
node map is therefore nil — and set its beginning to the recursive merge of
the NFA's beginning. -/
def ToDFA (nfa : Automata) : Option (Except GoPanic Automata) :=
  let dfa : Automata := { beginning := zeroNode, nodes := none }
  match recursiveMerge (nodeSize nfa.beginning) dfa nfa.beginning with
  | none => none
  | some (.error p) => some (.error p)
  | some (.ok (b, dfa')) => some (.ok { dfa' with beginning := b })

/-- C4 fails on the code: determinization panics at its very first step —
`makeCompositNode` calls `CreateNode` on the fresh DFA whose `nodes` map is
nil — so no determinized automaton ever exists whose language could match
the source's (and the general `Accepts` path does not even compile). -/
theorem toDFA_panics :
    ToDFA { beginning := Node.mk "S0" [(" ", [Node.mk "S1" [] true])] false,
            nodes := some [] }
      = some (.error GoPanic.nilMapAssignment) := rfl

/-- C5 fails on the code: beyond the nil-map panic that keeps `ToDFA` from
returning at all, the transition-copying loop copies every key of a merged
node's table — the epsilon symbol `" "` included — into the composite
node's table (duplicating the destination list), so epsilon entries would
survive determinization. -/
theorem mergeTransitions_keeps_epsilon :
    mapLookup " "
        (mergeTransitions (Node.mk "AB" [] false)
          [Node.mk "A" [(" ", [Node.mk "B" [] false])] false]).Transitions
      = some [Node.mk "B" [] false, Node.mk "B" [] false] := rfl
